import Mathlib

/-!
Shallow embedding of `src/voronoi/graph_server.py` (the graph-construction
core of the topological-map service) and proofs about it.

Conventions of the embedding:
* Python integers are `Int` (pixel coordinates) or `Nat` (node ids, counts);
  floats (`resolution`, world coordinates) are `ℚ` (exact arithmetic).
* Python exceptions are modelled with `Except Err`: `IndexError` from numpy
  array indexing, `TypeError` from unpacking `None`, `KeyError` from a dict
  lookup, `ValueError` from `np.reshape`; assignments performed before a
  raise persist, later ones do not, exactly as in Python.
* A Python `set` whose elements are only ever added, tested for membership
  and iterated is a duplicate-free `List` (`sadd` is `set.add`); a Python
  `dict` written with `d[k] = v` and read with `d[k]` is an association
  list where insertion prepends, so the most recent write wins.
* The `while` loop of `_traverse` is modelled with explicit fuel; the
  pipeline runs it with fuel `tfuel` and we prove (`traverse_no_fuelOut`)
  that this fuel is never exhausted, so the fuel is not observable.
* The image-processing prelude of `compute_graph` (scipy/skimage dilation,
  EDT, skeletonization, Harris corners, source lines 62-70) consists of
  external library calls; the embedding is parametrised by their outputs:
  the skeleton array `SkelArr` and the detected corner list.  All theorems
  quantify over those inputs.
-/

namespace GraphServer

/-- Python exceptions that the translated code can raise. -/
inductive Err where
  | indexError
  | typeError
  | keyError
  | valueError
  | fuelOut
deriving DecidableEq, Repr

/-- An entry of a node's `neighbors` set: either a raw coordinate tuple
(not yet resolved, as added by `_traverse`) or an integer node id
(as produced by `_set_ids`).  The source distinguishes the two cases by
`type(n) is tuple`. -/
inductive NRef where
  | coord (c : Int × Int)
  | id (n : Nat)
deriving DecidableEq, Repr

/-- A graph node during the pixel-coordinate phase: the dict
`{"x": x, "y": y, "id": id, "neighbors": set}` built by `_add_nodes`. -/
structure RawNode where
  x : Int
  y : Int
  id : Nat
  nbrs : List NRef
deriving DecidableEq, Repr

/-- A node of the returned (serialized) graph: coordinates have been
rewritten to world units and the neighbor set turned into a list. -/
structure SNode where
  x : ℚ
  y : ℚ
  id : Nat
  neighbors : List NRef
deriving DecidableEq, Repr

/-- The skeleton boolean array `self._skel` (a 2D numpy array of shape
`(rows, cols)`); `data` gives the value at a (row, col) pair of in-range
effective indices. -/
structure SkelArr where
  rows : Nat
  cols : Nat
  data : Int → Int → Bool

/-- `set.add` on a list-as-set (append keeps any iteration order stable). -/
def sadd (s : List NRef) (r : NRef) : List NRef :=
  if r ∈ s then s else s ++ [r]

/-- Indexing `skel[(y, x)]` on the numpy array: valid when each index is in
`[-dim, dim)`, with a negative index wrapping around, otherwise an
`IndexError` is raised. -/
def npGet (s : SkelArr) (y x : Int) : Except Err Bool :=
  if -(s.rows : Int) ≤ y ∧ y < (s.rows : Int) ∧ -(s.cols : Int) ≤ x ∧ x < (s.cols : Int) then
    .ok (s.data (if y < 0 then y + s.rows else y) (if x < 0 then x + s.cols else x))
  else .error .indexError

/-- `eight_neighbors(c, map)` from the source.  `shape` is `map.shape`,
which for a numpy array is `(rows, cols)`; the source unpacks it as
`width, height = map.shape`, so `width` is bound to the row count and
`height` to the column count, exactly as in the source.  A clamped
neighbor equal to `c` itself is replaced by `None`. -/
def eight_neighbors (c : Int × Int) (shape : Nat × Nat) : List (Option (Int × Int)) :=
  let x := c.1
  let y := c.2
  let width : Int := shape.1
  let height : Int := shape.2
  let n : Int × Int := (x, max 0 (y - 1))
  let ne : Int × Int := (min (width - 1) (x + 1), max 0 (y - 1))
  let e : Int × Int := (min (width - 1) (x + 1), y)
  let se : Int × Int := (min (width - 1) (x + 1), min (height - 1) (y + 1))
  let s : Int × Int := (x, min (height - 1) (y + 1))
  let sw : Int × Int := (max 0 (x - 1), min (height - 1) (y + 1))
  let w : Int × Int := (max 0 (x - 1), y)
  let nw : Int × Int := (max 0 (x - 1), max 0 (y - 1))
  [n, ne, e, se, s, sw, w, nw].map (fun d => if d ≠ c then some d else none)

/-- Result of processing the eight neighbors of the pixel currently being
expanded inside `_traverse`'s `while` loop: either the updated
`(seen, q)` state, or the coordinate of a keypoint that ends the walk. -/
inductive ExpandRes where
  | cont (seen : List (Int × Int)) (q : List (Int × Int))
  | found (c : Int × Int)
deriving DecidableEq, Repr

/-- The `for neighbor in self.eight_neighbors(curr, self._skel)` body of
`_traverse`: skip `None` and already-seen entries; otherwise add to
`seen`, look the pixel up in the skeleton (this can raise `IndexError`),
push it when skeleton-true, and stop the walk when it is a keypoint other
than the home node's own coordinate.  The queue is a `deque` used with
`append`/`pop`, i.e. a stack; its top is the list head here. -/
def expand (skel : SkelArr) (coords : List (Int × Int)) (homex homey : Int) :
    List (Option (Int × Int)) → List (Int × Int) → List (Int × Int) → Except Err ExpandRes
  | [], seen, q => .ok (.cont seen q)
  | none :: rest, seen, q => expand skel coords homex homey rest seen q
  | some nbr :: rest, seen, q =>
    if nbr ∈ seen then expand skel coords homex homey rest seen q
    else
      match npGet skel nbr.2 nbr.1 with
      | .error e => .error e
      | .ok b =>
        if nbr ∈ coords ∧ nbr ≠ (homex, homey) then .ok (.found nbr)
        else expand skel coords homex homey rest (nbr :: seen) (if b then nbr :: q else q)

/-- The `while len(q) > 0` loop of `_traverse`, with fuel.  `curr = q.pop()`
takes the most recently appended element (head of the list); on `found`
the coordinate is added to the home node's neighbor set and the function
returns. -/
def traverse (skel : SkelArr) (coords : List (Int × Int)) (home : RawNode) :
    Nat → List (Int × Int) → List (Int × Int) → Except Err RawNode
  | 0, _, _ => .error .fuelOut
  | _ + 1, _, [] => .ok home
  | fuel + 1, seen, curr :: q =>
    match expand skel coords home.x home.y (eight_neighbors curr (skel.rows, skel.cols)) seen q with
    | .error e => .error e
    | .ok (.found c) => .ok { home with nbrs := sadd home.nbrs (.coord c) }
    | .ok (.cont seen2 q2) => traverse skel coords home fuel seen2 q2

/-- `traverse` instrumented with the list of pixels popped from the queue
(the visit trace); used only to state properties of the walk.
`traverseT_fst` proves it computes the same node as `traverse`. -/
def traverseT (skel : SkelArr) (coords : List (Int × Int)) (home : RawNode) :
    Nat → List (Int × Int) → List (Int × Int) → List (Int × Int) →
    Except Err (RawNode × List (Int × Int))
  | 0, _, _, _ => .error .fuelOut
  | _ + 1, _, [], tr => .ok (home, tr)
  | fuel + 1, seen, curr :: q, tr =>
    match expand skel coords home.x home.y (eight_neighbors curr (skel.rows, skel.cols)) seen q with
    | .error e => .error e
    | .ok (.found c) => .ok ({ home with nbrs := sadd home.nbrs (.coord c) }, tr ++ [curr])
    | .ok (.cont seen2 q2) => traverseT skel coords home fuel seen2 q2 (tr ++ [curr])

/-- Modelled from the spec: the eight-neighbor body as the spec words it
for a breadth-first walk — identical to `expand` except that a pixel that
survives the skeleton test joins the frontier first-in-first-out
(appended at the tail of the queue). -/
def expand_bfs (skel : SkelArr) (coords : List (Int × Int)) (homex homey : Int) :
    List (Option (Int × Int)) → List (Int × Int) → List (Int × Int) → Except Err ExpandRes
  | [], seen, q => .ok (.cont seen q)
  | none :: rest, seen, q => expand_bfs skel coords homex homey rest seen q
  | some nbr :: rest, seen, q =>
    if nbr ∈ seen then expand_bfs skel coords homex homey rest seen q
    else
      match npGet skel nbr.2 nbr.1 with
      | .error e => .error e
      | .ok b =>
        if nbr ∈ coords ∧ nbr ≠ (homex, homey) then .ok (.found nbr)
        else expand_bfs skel coords homex homey rest (nbr :: seen) (if b then q ++ [nbr] else q)

/-- Modelled from the spec: the walk of §4.3 as a "bounded breadth-first
walk over skeleton pixels" — `traverseT` with a FIFO frontier. -/
def traverse_bfs (skel : SkelArr) (coords : List (Int × Int)) (home : RawNode) :
    Nat → List (Int × Int) → List (Int × Int) → List (Int × Int) →
    Except Err (RawNode × List (Int × Int))
  | 0, _, _, _ => .error .fuelOut
  | _ + 1, _, [], tr => .ok (home, tr)
  | fuel + 1, seen, curr :: q, tr =>
    match expand_bfs skel coords home.x home.y (eight_neighbors curr (skel.rows, skel.cols)) seen q with
    | .error e => .error e
    | .ok (.found c) => .ok ({ home with nbrs := sadd home.nbrs (.coord c) }, tr ++ [curr])
    | .ok (.cont seen2 q2) => traverse_bfs skel coords home fuel seen2 q2 (tr ++ [curr])

/-- Fuel with which the pipeline runs each walk; `traverse_no_fuelOut`
shows it is never exhausted (each loop iteration either shrinks the queue
or consumes one of the at most `4*rows*cols` indexable pixels). -/
def tfuel (skel : SkelArr) : Nat := 4 * skel.rows * skel.cols + 2

/-- `Except`-valued `mapM` on lists, written out so that proofs can unfold
it; models a `for node in graph` loop whose body may raise. -/
def emapM {α β : Type} (f : α → Except Err β) : List α → Except Err (List β)
  | [] => .ok []
  | a :: l =>
    match f a with
    | .error e => .error e
    | .ok b =>
      match emapM f l with
      | .error e => .error e
      | .ok bs => .ok (b :: bs)

/-- The body of `_add_neighbors` for one node: for each of the eight
entries around the node's pixel, first the source unpacks `u, v = neighbor`
(raising `TypeError` when the entry is `None`), then starts a walk from it.
The walks mutate the node's neighbor set in place, modelled by threading
the node through the fold. -/
def add_neighbors_node (skel : SkelArr) (coords : List (Int × Int)) (node : RawNode) :
    Except Err RawNode :=
  go node (eight_neighbors (node.x, node.y) (skel.rows, skel.cols))
where
  go : RawNode → List (Option (Int × Int)) → Except Err RawNode
  | nd, [] => .ok nd
  | _, none :: _ => .error .typeError
  | nd, some nbr :: rest =>
    match traverse skel coords nd (tfuel skel) [] [nbr] with
    | .error e => .error e
    | .ok nd2 => go nd2 rest

/-- `_add_neighbors(graph, coords)`: run the walks for every node of the
graph (each node's set is only mutated while that node is processed). -/
def add_neighbors (skel : SkelArr) (coords : List (Int × Int)) (graph : List RawNode) :
    Except Err (List RawNode) :=
  emapM (add_neighbors_node skel coords) graph

/-- `for i in range(n): graph = f(graph)` with a fallible body. -/
def iterM (f : List RawNode → Except Err (List RawNode)) :
    Nat → List RawNode → Except Err (List RawNode)
  | 0, g => .ok g
  | n + 1, g =>
    match f g with
    | .error e => .error e
    | .ok g2 => iterM f n g2

/-- The `ids` dict mapping a node's `(x, y)` tuple to its id.  Insertion
prepends and lookup returns the first match, so the most recent write
wins, as for a Python dict. -/
abbrev Dict := List ((Int × Int) × Nat)

/-- `d[k] = v`. -/
def dinsert (d : Dict) (k : Int × Int) (v : Nat) : Dict := (k, v) :: d

/-- `d[k]`, as an `Option` (a `None` result corresponds to `KeyError`). -/
def dlookup : Dict → (Int × Int) → Option Nat
  | [], _ => none
  | (k2, v) :: rest, k => if k2 = k then some v else dlookup rest k

/-- The first loop of `_set_ids`: register every node's coordinate tuple
in `ids`.  (The source also fills a dict `rev_ids` in a second loop, but
`rev_ids` is never read anywhere in the program, so it is omitted.) -/
def register_ids (graph : List RawNode) (ids : Dict) : Dict :=
  graph.foldl (fun d node => dinsert d (node.x, node.y) node.id) ids

/-- The inner loop of `_set_ids` building `new_neighbors`: a tuple entry
is looked up in `ids` (possible `KeyError`) and its id added; an entry
that is not a tuple is *not* copied into the new set. -/
def resolve_nbrs (ids : Dict) : List NRef → List NRef → Except Err (List NRef)
  | acc, [] => .ok acc
  | acc, NRef.coord c :: rest =>
    match dlookup ids c with
    | some i => resolve_nbrs ids (sadd acc (.id i)) rest
    | none => .error .keyError
  | acc, NRef.id _ :: rest => resolve_nbrs ids acc rest

/-- `_set_ids(graph, ids, rev_ids)`: register all nodes, then replace each
node's neighbor set by the resolved one.  Returns the new graph together
with the updated `ids` dict (which persists between the two calls in
`compute_graph`). -/
def set_ids (graph : List RawNode) (ids0 : Dict) : Except Err (List RawNode × Dict) :=
  match emapM (fun node =>
      match resolve_nbrs (register_ids graph ids0) [] node.nbrs with
      | .error e => .error e
      | .ok nb => .ok { node with nbrs := nb }) graph with
  | .error e => .error e
  | .ok g => .ok (g, register_ids graph ids0)

/-- One iteration of the double loop of `_make_graph_symmetrical` at the
index pair `p = (i, j)`: when `graph[i]`'s id is in `graph[j]`'s neighbor
set but not conversely, add `graph[j]`'s id to `graph[i]`'s set. -/
def sym_step (g : List RawNode) (p : Nat × Nat) : List RawNode :=
  if p.1 = p.2 then g
  else
    match g[p.1]?, g[p.2]? with
    | some node, some other =>
      if NRef.id node.id ∈ other.nbrs ∧ NRef.id other.id ∉ node.nbrs then
        g.set p.1 { node with nbrs := sadd node.nbrs (.id other.id) }
      else g
    | _, _ => g

/-- All index pairs `(i, j)` with `i, j < n`, in the row-major order of the
source's nested `for i in range(len(graph)): for j in range(len(graph))`. -/
def sym_pairs (n : Nat) : List (Nat × Nat) :=
  ((List.range n).map (fun i => (List.range n).map (fun j => (i, j)))).flatten

/-- `_make_graph_symmetrical(graph)`. -/
def make_graph_symmetrical (g : List RawNode) : List RawNode :=
  (sym_pairs g.length).foldl sym_step g

/-- The comparison `self._dist(x1, y1, x2, y2) < thresh` of `_prune_graph`:
the source compares the Euclidean norm with `thresh`; with exact
arithmetic that is equivalent to comparing the squares (both sides are
non-negative), which is how it is modelled. -/
def distSqLt (x1 y1 x2 y2 t : Int) : Bool :=
  (x2 - x1) ^ 2 + (y2 - y1) ^ 2 < t ^ 2

/-- The marking loop of `_prune_graph`: in list order, every node whose id
is not already marked marks the id of every *other* node closer than
`thresh`. -/
def prune_mark (graph : List RawNode) (t : Int) : List Nat :=
  graph.foldl (fun tr node =>
    if node.id ∈ tr then tr
    else graph.foldl (fun tr2 other =>
      if node ≠ other ∧ distSqLt other.x other.y node.x node.y t then
        (if other.id ∈ tr2 then tr2 else tr2 ++ [other.id])
      else tr2) tr) []

/-- `_prune_graph(graph, thresh)`.  The compile loop of the source tests
the list *index* `i` against `to_remove`, which contains node *ids*:
`for i in range(len(graph)): if i not in to_remove: new_graph.append(graph[i])`.
This index/id mismatch is preserved exactly. -/
def prune_graph (graph : List RawNode) (t : Int) : List RawNode :=
  let tr := prune_mark graph t
  (graph.enum.filter (fun p => decide (p.1 ∉ tr))).map (fun p => p.2)

/-- `_id_in_graph(id, graph)`: whether some node's integer id equals the
given neighbor entry (an int never equals a tuple in Python). -/
def id_in_graph (r : NRef) (graph : List RawNode) : Bool :=
  graph.any (fun n => decide (NRef.id n.id = r))

/-- The dangling-neighbor removal loop of `compute_graph` (source lines
103-109): drop from each node's set every entry whose id is not the id of
a node of the graph. -/
def remove_dangling (graph : List RawNode) : List RawNode :=
  graph.map (fun node => { node with nbrs := node.nbrs.filter (fun r => id_in_graph r graph) })

/-- The serialization loop of `compute_graph` (source lines 111-118): the
coordinates are rewritten from pixel to world units using the grid
resolution and origin offset — a pure translation — and the neighbor set
becomes a list. -/
def serialize_node (res : ℚ) (off : ℚ × ℚ) (n : RawNode) : SNode :=
  { x := (n.x : ℚ) * res + off.1
    y := (n.y : ℚ) * res + off.2
    id := n.id
    neighbors := n.nbrs }

/-- `_add_nodes(coords)`: one node per coordinate, in order, each taking
the next id from the server's persistent counter. -/
def add_nodes : List (Int × Int) → Nat → List RawNode × Nat
  | [], count => ([], count)
  | c :: rest, count =>
    let r := add_nodes rest (count + 1)
    ({ x := c.1, y := c.2, id := count, nbrs := [] } :: r.1, r.2)

/-- The tail of `compute_graph` after pruning (source lines 91-109): the
walks are rerun against the surviving nodes (`nodes_of_interest`), ids
are re-resolved with the persisting `ids` dict, the graph symmetrized
again, and dangling neighbor ids removed. -/
def pipeline_after_prune (skel : SkelArr) (pruned : List RawNode) (ids : Dict) :
    Except Err (List RawNode) :=
  match add_neighbors skel (pruned.map (fun n => (n.x, n.y))) pruned with
  | .error e => .error e
  | .ok pruned2 =>
    match set_ids pruned2 ids with
    | .error e => .error e
    | .ok (pruned3, _) => .ok (remove_dangling (make_graph_symmetrical pruned3))

/-- `compute_graph` up to (and including) the dangling-neighbor removal:
everything after the image-processing prelude except the final
serialization loop.  `corners` is the output of `corner_peaks` as
(row, col) pairs; line 75 of the source swaps them into (x, y): the node
creation, ten rounds of neighbor discovery, first id resolution and
symmetrization, pruning, then `pipeline_after_prune`. -/
def compute_pixel_graph (skel : SkelArr) (corners : List (Int × Int)) (count : Nat) :
    Except Err (List RawNode) :=
  match iterM (add_neighbors skel (corners.map (fun c => (c.2, c.1)))) 10
      (add_nodes (corners.map (fun c => (c.2, c.1))) count).1 with
  | .error e => .error e
  | .ok graph =>
    match set_ids graph [] with
    | .error e => .error e
    | .ok (graph2, ids) =>
      pipeline_after_prune skel (prune_graph (make_graph_symmetrical graph2) 100) ids

/-- `compute_graph` (source lines 73-120): the pixel-graph pipeline
followed by the serialization loop. -/
def compute_graph (skel : SkelArr) (corners : List (Int × Int)) (count : Nat)
    (res : ℚ) (off : ℚ × ℚ) : Except Err (List SNode) :=
  match compute_pixel_graph skel corners count with
  | .error e => .error e
  | .ok g => .ok (g.map (serialize_node res off))

/-- The ingested grid: `self._map`, the result of
`np.reshape(msg.data, (height, width))`. -/
structure Grid where
  height : Nat
  width : Nat
  cells : List Int
deriving DecidableEq, Repr

/-- The `info` part of an `OccupancyGrid` message.  The orientation
quaternion is carried but, like the source, never read by any function of
this file. -/
structure MsgInfo where
  width : Nat
  height : Nat
  resolution : ℚ
  originX : ℚ
  originY : ℚ
  orientX : ℚ
  orientY : ℚ
  orientZ : ℚ
  orientW : ℚ
deriving DecidableEq, Repr

/-- An `OccupancyGrid` ingestion message. -/
structure Msg where
  info : MsgInfo
  data : List Int
deriving DecidableEq, Repr

/-- The mutable fields of the `Server` touched by `_map_callback`. -/
structure ServerState where
  map : Option Grid
  res : Option ℚ
  off : Option (ℚ × ℚ)
deriving DecidableEq, Repr

/-- `_map_callback(msg)`: the source stores the resolution and the origin
offset *before* calling `np.reshape`, which raises `ValueError` when the
cell data length is inconsistent with `height * width`; assignments made
before the raise persist.  Returns the post-call state and the raised
exception, if any. -/
def map_callback (s : ServerState) (msg : Msg) : ServerState × Option Err :=
  let s1 : ServerState :=
    { s with
      res := some msg.info.resolution
      off := some (msg.info.originX, msg.info.originY) }
  if msg.data.length = msg.info.height * msg.info.width then
    ({ s1 with
        map := some { height := msg.info.height, width := msg.info.width, cells := msg.data } },
      none)
  else (s1, some .valueError)

/-- A `TriggerResponse`. -/
structure TriggerResp where
  success : Bool
  message : String
deriving DecidableEq, Repr

/-- `_graph_callback(req)`: `dumps` stands for the evaluation of
`json.dumps(self.compute_graph())`; the source has no exception handler,
so an exception raised there propagates out of the callback, and on
success the response always has `success = True`. -/
def graph_callback (dumps : Except Err String) : Except Err TriggerResp :=
  match dumps with
  | .error e => .error e
  | .ok m => .ok { success := true, message := m }

/-- Symmetry of the returned graph: `b.id ∈ a.neighbors ⇔ a.id ∈ b.neighbors`. -/
def SymmS (g : List SNode) : Prop :=
  ∀ a ∈ g, ∀ b ∈ g, (NRef.id b.id ∈ a.neighbors ↔ NRef.id a.id ∈ b.neighbors)

/-- No dangling references in the returned graph: every neighbor entry is
the id of a node present in the same graph. -/
def NoDanglingS (g : List SNode) : Prop :=
  ∀ a ∈ g, ∀ r ∈ a.neighbors, ∃ b ∈ g, r = NRef.id b.id

/-- Symmetry, on the pixel-phase graph. -/
def SymmRaw (g : List RawNode) : Prop :=
  ∀ a ∈ g, ∀ b ∈ g, (NRef.id b.id ∈ a.nbrs ↔ NRef.id a.id ∈ b.nbrs)

/-- No dangling references, on the pixel-phase graph. -/
def NoDanglingRaw (g : List RawNode) : Prop :=
  ∀ a ∈ g, ∀ r ∈ a.nbrs, ∃ b ∈ g, r = NRef.id b.id

/-- The id column of a graph. -/
def ids_of (g : List RawNode) : List Nat := g.map (fun n => n.id)

/-- Two nodes agreeing on everything except possibly the neighbor set. -/
def SameNXY (a b : RawNode) : Prop := b.id = a.id ∧ b.x = a.x ∧ b.y = a.y

/-- One-directional symmetry between the nodes at two indices. -/
def SymAt (g : List RawNode) (i j : Nat) : Prop :=
  ∀ a b, g[i]? = some a → g[j]? = some b → NRef.id a.id ∈ b.nbrs → NRef.id b.id ∈ a.nbrs

/-- The coordinates whose skeleton lookup does not raise: numpy accepts
indices in `[-dim, dim)` in each dimension, so there are `4*rows*cols` of
them. -/
def validSet (skel : SkelArr) : Finset (Int × Int) :=
  Finset.Ico (-(skel.cols : Int)) (skel.cols : Int) ×ˢ
    Finset.Ico (-(skel.rows : Int)) (skel.rows : Int)

/-- Number of indexable coordinates not yet in the walk's seen-set; with
the queue length this is the walk's termination measure. -/
def unseenCount (skel : SkelArr) (seen : List (Int × Int)) : Nat :=
  ((validSet skel).filter (fun c => c ∉ seen)).card

/-- Claim C8 as stated: each walk started from `start` is the
breadth-first walk described by the spec (same behaviour, including the
visit order), and its visit trace holds each pixel at most once. -/
def ClaimC8 : Prop :=
  ∀ (skel : SkelArr) (coords : List (Int × Int)) (home : RawNode) (start : Int × Int),
    traverseT skel coords home (tfuel skel) [] [start] [] =
      traverse_bfs skel coords home (tfuel skel) [] [start] [] ∧
    (∀ h2 tr, traverseT skel coords home (tfuel skel) [] [start] [] = .ok (h2, tr) → tr.Nodup)

/-- A 10x10 skeleton: a short path heading north of the start pixel
`(4, 5)` and another heading north-west, the second one longer. -/
def skelC : SkelArr :=
  ⟨10, 10, fun y x => decide ((x, y) ∈ ([(4, 5), (4, 4), (3, 4), (4, 3), (2, 3)] : List (Int × Int)))⟩

/-- The walk's home node at pixel `(5, 5)`. -/
def homeC : RawNode := ⟨5, 5, 0, []⟩

instance {ε α : Type} [DecidableEq ε] [DecidableEq α] : DecidableEq (Except ε α) :=
  fun a b =>
    match a, b with
    | .error e, .error e2 =>
      if h : e = e2 then isTrue (by rw [h]) else isFalse (fun hh => h (by cases hh; rfl))
    | .ok v, .ok v2 =>
      if h : v = v2 then isTrue (by rw [h]) else isFalse (fun hh => h (by cases hh; rfl))
    | .error _, .ok _ => isFalse (fun hh => by cases hh)
    | .ok _, .error _ => isFalse (fun hh => by cases hh)

/-- Claim C4 as stated: after `_set_ids`, each node's new neighbor set
contains every already-resolved id of the old set unchanged, and the id
that `ids` associates to every coordinate-tuple of the old set. -/
def ClaimC4 : Prop :=
  ∀ (graph : List RawNode) (d : Dict) (g2 : List RawNode) (d2 : Dict),
    set_ids graph d = .ok (g2, d2) →
    List.Forall₂ (fun n n2 : RawNode =>
      (∀ m : Nat, NRef.id m ∈ n.nbrs → NRef.id m ∈ n2.nbrs) ∧
      (∀ c i, NRef.coord c ∈ n.nbrs → dlookup d2 c = some i → NRef.id i ∈ n2.nbrs))
      graph g2

/-- Claim C5 as stated: when ingestion raises, the state is unchanged. -/
def ClaimC5 : Prop :=
  ∀ (s : ServerState) (msg : Msg) (s2 : ServerState) (e : Err),
    map_callback s msg = (s2, some e) → s2 = s

/-- Claim C6 as stated: a pipeline failure yields a `success=false`
response. -/
def ClaimC6 : Prop :=
  ∀ e : Err, ∃ m : String, graph_callback (.error e) = .ok ⟨false, m⟩

/-- Modelled from the spec: membership in a grid of `width` columns and
`height` rows. -/
def claim_in_bounds (width height : Nat) (c : Int × Int) : Prop :=
  0 ≤ c.1 ∧ c.1 < (width : Int) ∧ 0 ≤ c.2 ∧ c.2 < (height : Int)

/-- An all-false 100x100 skeleton. -/
def skelA : SkelArr := ⟨100, 100, fun _ _ => false⟩

/-- Two corner keypoints whose (x, y) coordinates `(10, 10)` and
`(60, 10)` are 50 pixels apart — less than the prune threshold 100. -/
def cornersA : List (Int × Int) := [(10, 10), (10, 60)]

/-! ### Basic lemmas about the set/dict/`Except` helpers -/

theorem mem_sadd {s : List NRef} {r t : NRef} : r ∈ sadd s t ↔ r ∈ s ∨ r = t := by
  unfold sadd
  split
  · constructor
    · exact fun h2 => Or.inl h2
    · rintro (h2 | rfl) <;> assumption
  · simp [List.mem_append]

theorem emapM_forall₂ {α β : Type} (f : α → Except Err β) (R : α → β → Prop)
    (hf : ∀ a b, f a = .ok b → R a b) :
    ∀ (l : List α) (l2 : List β), emapM f l = .ok l2 → List.Forall₂ R l l2 := by
  intro l
  induction l with
  | nil => intro l2 h; cases h; exact List.Forall₂.nil
  | cons a rest ih =>
    intro l2 h
    unfold emapM at h
    cases hfa : f a with
    | error e => rw [hfa] at h; cases h
    | ok b =>
      rw [hfa] at h
      cases hrest : emapM f rest with
      | error e => rw [hrest] at h; cases h
      | ok bs =>
        rw [hrest] at h
        cases h
        exact List.Forall₂.cons (hf a b hfa) (ih bs hrest)

/-! ### C4 — `_set_ids` and already-resolved entries

The claim: id resolution replaces every coordinate-tuple entry with the id
of the node having that coordinate and leaves every non-tuple entry (an
already-resolved id) unchanged.  The source rebuilds `new_neighbors`
keeping only entries with `type(n) is tuple`, so resolved ids are
discarded, refuting the second half. -/

/-- C4 counterexample: a node whose neighbor set holds the already-resolved
id `7` loses it: `_set_ids` keeps only tuple entries. -/
theorem set_ids_drops_resolved_ids : ¬ ClaimC4 := by
  intro h
  have h2 := h [⟨0, 0, 0, [NRef.id 7]⟩] [] [⟨0, 0, 0, []⟩] [((0, 0), 0)] (by decide)
  cases h2 with
  | cons hrel _ => exact absurd (hrel.1 7 (by decide)) (by decide)

theorem resolve_nbrs_mem (ids : Dict) :
    ∀ (l acc out : List NRef), resolve_nbrs ids acc l = .ok out →
      ∀ r, r ∈ out ↔ r ∈ acc ∨ ∃ c i, NRef.coord c ∈ l ∧ dlookup ids c = some i ∧ r = NRef.id i := by
  intro l
  induction l with
  | nil =>
    intro acc out h r
    cases h
    simp
  | cons hd rest ih =>
    intro acc out h r
    cases hd with
    | coord c =>
      unfold resolve_nbrs at h
      cases hl : dlookup ids c with
      | none => rw [hl] at h; cases h
      | some i =>
        rw [hl] at h
        rw [ih _ _ h r, mem_sadd]
        constructor
        · rintro ((h2 | rfl) | ⟨c2, i2, hc2, hl2, rfl⟩)
          · exact Or.inl h2
          · exact Or.inr ⟨c, i, List.mem_cons_self _ _, hl, rfl⟩
          · exact Or.inr ⟨c2, i2, List.mem_cons_of_mem _ hc2, hl2, rfl⟩
        · rintro (h2 | ⟨c2, i2, hc2, hl2, rfl⟩)
          · exact Or.inl (Or.inl h2)
          · rcases List.mem_cons.mp hc2 with hc2 | hc2
            · cases hc2
              rw [hl] at hl2
              cases hl2
              exact Or.inl (Or.inr rfl)
            · exact Or.inr ⟨c2, i2, hc2, hl2, rfl⟩
    | id m =>
      unfold resolve_nbrs at h
      rw [ih _ _ h r]
      constructor
      · rintro (h2 | ⟨c2, i2, hc2, hl2, rfl⟩)
        · exact Or.inl h2
        · exact Or.inr ⟨c2, i2, List.mem_cons_of_mem _ hc2, hl2, rfl⟩
      · rintro (h2 | ⟨c2, i2, hc2, hl2, rfl⟩)
        · exact Or.inl h2
        · rcases List.mem_cons.mp hc2 with hc2 | hc2
          · cases hc2
          · exact Or.inr ⟨c2, i2, hc2, hl2, rfl⟩

/-- C4 amended: `_set_ids` returns the dict updated with every node's
coordinate, and each node's new neighbor set consists *exactly* of the
resolved ids of the coordinate-tuple entries of its old set — every
non-tuple entry is discarded, not passed through. -/
theorem set_ids_spec (graph : List RawNode) (d : Dict) (g2 : List RawNode) (d2 : Dict)
    (h : set_ids graph d = .ok (g2, d2)) :
    d2 = register_ids graph d ∧
    List.Forall₂ (fun n n2 : RawNode =>
      n2.x = n.x ∧ n2.y = n.y ∧ n2.id = n.id ∧
      (∀ r, r ∈ n2.nbrs ↔ ∃ c i, NRef.coord c ∈ n.nbrs ∧ dlookup d2 c = some i ∧ r = NRef.id i))
      graph g2 := by
  unfold set_ids at h
  cases hm : emapM (fun node =>
      match resolve_nbrs (register_ids graph d) [] node.nbrs with
      | .error e => .error e
      | .ok nb => .ok { node with nbrs := nb }) graph with
  | error e => rw [hm] at h; cases h
  | ok g =>
    rw [hm] at h
    cases h
    refine ⟨rfl, emapM_forall₂ _ _ ?_ _ _ hm⟩
    intro a b hab
    cases hr : resolve_nbrs (register_ids graph d) [] a.nbrs with
    | error e => rw [hr] at hab; cases hab
    | ok nb =>
      rw [hr] at hab
      cases hab
      refine ⟨rfl, rfl, rfl, ?_⟩
      intro r
      rw [resolve_nbrs_mem _ _ _ _ hr r]
      simp

/-- C4 amended, witnessed on the counterexample node: the resolved id `7`
is gone and the new set is exactly the resolution of the tuple entries. -/
theorem set_ids_spec_witness :
    ([((0, 0), 0)] : Dict) = register_ids [⟨0, 0, 0, [NRef.id 7]⟩] [] ∧
    List.Forall₂ (fun n n2 : RawNode =>
      n2.x = n.x ∧ n2.y = n.y ∧ n2.id = n.id ∧
      (∀ r, r ∈ n2.nbrs ↔ ∃ c i, NRef.coord c ∈ n.nbrs ∧
        dlookup [((0, 0), 0)] c = some i ∧ r = NRef.id i))
      [⟨0, 0, 0, [NRef.id 7]⟩] [⟨0, 0, 0, []⟩] :=
  set_ids_spec [⟨0, 0, 0, [NRef.id 7]⟩] [] [⟨0, 0, 0, []⟩] [((0, 0), 0)] (by decide)

/-! ### C5 — atomicity of a rejected ingestion

The claim: a malformed ingestion leaves the whole state — grid, stored
resolution and origin offset — unchanged.  The source overwrites
`_map_resolution` and `_map_offset` before the `np.reshape` call that
raises, so only the grid itself survives. -/

/-- C5 counterexample: a malformed message (1×1 grid, empty cell data)
still overwrites the stored resolution and offset. -/
theorem map_callback_not_atomic : ¬ ClaimC5 := by
  intro h
  have h2 := h ⟨none, some 1, some (0, 0)⟩ ⟨⟨1, 1, 2, 5, 5, 0, 0, 0, 1⟩, []⟩
      ⟨none, some 2, some (5, 5)⟩ .valueError (by decide)
  exact absurd h2 (by decide)

/-- C5 amended: on a malformed ingestion (`ValueError` from the reshape)
the grid itself is unchanged, but the stored resolution and origin offset
have already been overwritten with the message's values. -/
theorem map_callback_error_state (s : ServerState) (msg : Msg) (s2 : ServerState) (e : Err)
    (h : map_callback s msg = (s2, some e)) :
    s2.map = s.map ∧ s2.res = some msg.info.resolution ∧
    s2.off = some (msg.info.originX, msg.info.originY) ∧ e = .valueError ∧
    msg.data.length ≠ msg.info.height * msg.info.width := by
  unfold map_callback at h
  split at h
  · simp only [Prod.mk.injEq] at h
    cases h.2
  · rename_i hlen
    simp only [Prod.mk.injEq, Option.some.injEq] at h
    obtain ⟨rfl, rfl⟩ := h
    exact ⟨rfl, rfl, rfl, rfl, hlen⟩

/-- C5 amended, witnessed on the counterexample message. -/
theorem map_callback_error_state_witness :
    (⟨none, some 2, some (5, 5)⟩ : ServerState).map = (⟨none, some 1, some (0, 0)⟩ : ServerState).map ∧
    (⟨none, some 2, some (5, 5)⟩ : ServerState).res = some (2 : ℚ) ∧
    (⟨none, some 2, some (5, 5)⟩ : ServerState).off = some ((5 : ℚ), (5 : ℚ)) ∧
    Err.valueError = Err.valueError ∧
    ([] : List Int).length ≠ 1 * 1 :=
  map_callback_error_state ⟨none, some 1, some (0, 0)⟩ ⟨⟨1, 1, 2, 5, 5, 0, 0, 0, 1⟩, []⟩
    ⟨none, some 2, some (5, 5)⟩ .valueError (by decide)

/-! ### C6 — error handling of the compute-graph request

The claim: a pipeline failure is returned as `success=false` with a
message.  `_graph_callback` has no exception handler and unconditionally
sets `success = True`, so an exception propagates out instead. -/

/-- C6 counterexample: a failed pipeline makes the callback re-raise, not
answer `success=false`. -/
theorem graph_callback_no_failure_response : ¬ ClaimC6 := by
  intro h
  rcases h .valueError with ⟨m, hm⟩
  cases hm

/-- C6 amended: on success the callback returns `success=true` carrying
the serialized graph; a pipeline exception propagates out of the callback
unchanged — no `success=false` response is ever produced. -/
theorem graph_callback_spec (d : Except Err String) (r : Except Err TriggerResp)
    (h : graph_callback d = r) :
    (∃ m, d = .ok m ∧ r = .ok ⟨true, m⟩) ∨ (∃ e, d = .error e ∧ r = .error e) := by
  cases d with
  | ok m => exact Or.inl ⟨m, rfl, h.symm⟩
  | error e => exact Or.inr ⟨e, rfl, h.symm⟩

/-- C6 amended, witnessed at a failing pipeline value. -/
theorem graph_callback_spec_witness :
    (∃ m, (.error .valueError : Except Err String) = .ok m ∧
      (.error .valueError : Except Err TriggerResp) = .ok ⟨true, m⟩) ∨
    (∃ e, (.error .valueError : Except Err String) = .error e ∧
      (.error .valueError : Except Err TriggerResp) = .error e) :=
  graph_callback_spec (.error .valueError) (.error .valueError) rfl

/-! ### C7 — bounds of `eight_neighbors`

The claim: every returned entry lies inside a grid of `width` columns and
`height` rows.  The source unpacks `width, height = map.shape`, but numpy
shape is `(rows, cols)`, so the clamps use the two dimensions swapped; on
any non-square grid this produces out-of-bounds entries whose skeleton
lookup raises `IndexError`. -/

/-- C7 failing input: on a grid with 5 rows and 10 columns (shape
`(5, 10)`), the south neighbor of the pixel `(3, 4)` — which lies in the
last row — is reported as `(3, 5)`, outside the grid, and the skeleton
lookup `skel[(5, 3)]` raises `IndexError`. -/
theorem eight_neighbors_out_of_bounds :
    some ((3 : Int), (5 : Int)) ∈ eight_neighbors (3, 4) (5, 10) ∧
    ¬ claim_in_bounds 10 5 (3, 5) ∧
    npGet ⟨5, 10, fun _ _ => true⟩ 5 3 = .error .indexError := by
  refine ⟨by decide, ?_, by decide⟩
  intro h
  exact absurd h.2.2.2 (by decide)

/-! ### C2 and C3 — the pruning index/id confusion

`_prune_graph` collects node *ids* in `to_remove` but filters the node
list by *index* (`if i not in to_remove`).  Ids equal indices only on the
first `compute_graph` call of the server's lifetime (counter at 0); on
any later call no node is ever removed, violating both the pruning
distance floor (C2) and the determinism across invocations (C3). -/

/-- The first invocation on this grid (counter at 0): ids coincide with
list indices, so the index filter of `_prune_graph` removes the marked
node and one node survives. -/
theorem computeA_first : compute_graph skelA cornersA 0 1 (0, 0) = .ok [⟨10, 10, 0, []⟩] := by
  have hp : compute_pixel_graph skelA cornersA 0 = .ok [⟨10, 10, 0, []⟩] := by decide
  simp [compute_graph, hp, serialize_node]

/-- The second invocation (counter at 2): the marked id set is `{3}` but
the filter tests the indices `0, 1`, so nothing is removed. -/
theorem computeA_second :
    compute_graph skelA cornersA 2 1 (0, 0) = .ok [⟨10, 10, 2, []⟩, ⟨60, 10, 3, []⟩] := by
  have hp : compute_pixel_graph skelA cornersA 2 = .ok [⟨10, 10, 2, []⟩, ⟨60, 10, 3, []⟩] := by
    decide
  simp [compute_graph, hp, serialize_node]

/-- C2 failing input: on the *second* invocation (id counter at 2) the
returned graph keeps two distinct nodes only 50 pixels apart (squared
world distance `2500 < 100²` at resolution 1). -/
theorem prune_distance_floor_violated :
    ∃ g, compute_graph skelA cornersA 2 1 (0, 0) = .ok g ∧
      ∃ a ∈ g, ∃ b ∈ g, a.id ≠ b.id ∧ (a.x - b.x) ^ 2 + (a.y - b.y) ^ 2 < (100 : ℚ) ^ 2 := by
  refine ⟨[⟨10, 10, 2, []⟩, ⟨60, 10, 3, []⟩], computeA_second, ⟨10, 10, 2, []⟩, ?_, ⟨60, 10, 3, []⟩, ?_, ?_, ?_⟩
  · exact List.mem_cons_self _ _
  · exact List.mem_cons_of_mem _ (List.mem_cons_self _ _)
  · decide
  · norm_num

/-- C3 failing input: on the same grid, the first invocation (counter 0)
prunes one of the two close keypoints but the second (counter 2) prunes
nothing, so the two returned graphs do not even have the same number of
nodes — no id relabeling can match them. -/
theorem compute_graph_not_invocation_invariant :
    ∃ g1 g2, compute_graph skelA cornersA 0 1 (0, 0) = .ok g1 ∧
      compute_graph skelA cornersA 2 1 (0, 0) = .ok g2 ∧ g1.length ≠ g2.length :=
  ⟨[⟨10, 10, 0, []⟩], [⟨10, 10, 2, []⟩, ⟨60, 10, 3, []⟩], computeA_first, computeA_second, by decide⟩

/-! ### C9 — pixel-to-world coordinate transform

The serialization loop rewrites each surviving node's coordinates as
`world = pixel * resolution + offset`; the offset is built by
`_map_callback` from `origin.position` only, so the origin's orientation
never enters the transform. -/

/-- C9: every node of a returned graph is the serialization of the
corresponding pixel-graph node: world coordinates are exactly
`pixel * resolution + offset` (a pure translation), ids and neighbor sets
unchanged; and the ingestion callback is insensitive to the origin's
orientation quaternion, so orientation can never influence the
transform. -/
theorem world_transform_exact (skel : SkelArr) (corners : List (Int × Int)) (count : Nat)
    (res : ℚ) (off : ℚ × ℚ) (out : List SNode)
    (h : compute_graph skel corners count res off = .ok out) :
    (∃ pg, compute_pixel_graph skel corners count = .ok pg ∧
      List.Forall₂ (fun (n : RawNode) (s : SNode) =>
        s.x = (n.x : ℚ) * res + off.1 ∧ s.y = (n.y : ℚ) * res + off.2 ∧
        s.id = n.id ∧ s.neighbors = n.nbrs) pg out) ∧
    (∀ (st : ServerState) (i1 i2 : MsgInfo) (data : List Int),
      i1.width = i2.width → i1.height = i2.height → i1.resolution = i2.resolution →
      i1.originX = i2.originX → i1.originY = i2.originY →
      map_callback st ⟨i1, data⟩ = map_callback st ⟨i2, data⟩) := by
  constructor
  · unfold compute_graph at h
    cases hp : compute_pixel_graph skel corners count with
    | error e => rw [hp] at h; cases h
    | ok pg =>
      rw [hp] at h
      cases h
      refine ⟨pg, rfl, ?_⟩
      rw [List.forall₂_map_right_iff, List.forall₂_same]
      intro n _
      exact ⟨rfl, rfl, rfl, rfl⟩
  · intro st i1 i2 data hw hh hr hx hy
    simp [map_callback, hw, hh, hr, hx, hy]

/-- The first invocation on `skelA`, with resolution 2 and offset (3, 4):
the surviving pixel node `(10, 10)` is reported at world `(23, 24)`. -/
theorem computeA_res2 : compute_graph skelA cornersA 0 2 (3, 4) = .ok [⟨23, 24, 0, []⟩] := by
  have hp : compute_pixel_graph skelA cornersA 0 = .ok [⟨10, 10, 0, []⟩] := by decide
  simp [compute_graph, hp, serialize_node]
  norm_num

/-- C9 witnessed at resolution 2 and offset (3, 4). -/
theorem world_transform_exact_witness :
    (∃ pg, compute_pixel_graph skelA cornersA 0 = .ok pg ∧
      List.Forall₂ (fun (n : RawNode) (s : SNode) =>
        s.x = (n.x : ℚ) * 2 + 3 ∧ s.y = (n.y : ℚ) * 2 + 4 ∧
        s.id = n.id ∧ s.neighbors = n.nbrs) pg [⟨23, 24, 0, []⟩]) ∧
    (∀ (st : ServerState) (i1 i2 : MsgInfo) (data : List Int),
      i1.width = i2.width → i1.height = i2.height → i1.resolution = i2.resolution →
      i1.originX = i2.originX → i1.originY = i2.originY →
      map_callback st ⟨i1, data⟩ = map_callback st ⟨i2, data⟩) :=
  world_transform_exact skelA cornersA 0 2 (3, 4) [⟨23, 24, 0, []⟩] computeA_res2

/-! ### C1 — symmetry and absence of dangling references

Development: every stage of the pipeline preserves the id column of the
graph (pruning selects a sublist of it), the ids assigned by `_add_nodes`
are distinct, one full pass of `_make_graph_symmetrical` makes adjacency
symmetric when ids are distinct, and the final dangling-removal loop
keeps only ids of present nodes while preserving symmetry. -/

theorem forall₂_sameNXY_ids {g g2 : List RawNode} (h : List.Forall₂ SameNXY g g2) :
    ids_of g2 = ids_of g := by
  induction h with
  | nil => rfl
  | cons hr _ ih => simp only [ids_of, List.map_cons] at ih ⊢; rw [hr.1, ih]

theorem expand_found_mem (skel : SkelArr) (coords : List (Int × Int)) (hx hy : Int) :
    ∀ (lst : List (Option (Int × Int))) (seen q : List (Int × Int)) (c : Int × Int),
      expand skel coords hx hy lst seen q = .ok (.found c) → c ∈ coords ∧ c ≠ (hx, hy) := by
  intro lst
  induction lst with
  | nil =>
    intro seen q c h
    injection h with h2
    cases h2
  | cons o rest ih =>
    intro seen q c h
    cases o with
    | none => exact ih seen q c h
    | some nbr =>
      unfold expand at h
      split at h
      · exact ih seen q c h
      · split at h
        · cases h
        · split at h
          · rename_i hcond
            injection h with h2
            injection h2 with h3
            cases h3
            exact hcond
          · exact ih _ _ c h

theorem traverse_ok_shape (skel : SkelArr) (coords : List (Int × Int)) (home : RawNode) :
    ∀ (fuel : Nat) (seen q : List (Int × Int)) (h2 : RawNode),
      traverse skel coords home fuel seen q = .ok h2 →
      h2 = home ∨ ∃ c, c ∈ coords ∧ c ≠ (home.x, home.y) ∧
        h2 = { home with nbrs := sadd home.nbrs (.coord c) } := by
  intro fuel
  induction fuel with
  | zero => intro seen q h2 h; cases h
  | succ fuel ih =>
    intro seen q h2 h
    cases q with
    | nil =>
      injection h with h3
      exact Or.inl h3.symm
    | cons curr q0 =>
      unfold traverse at h
      cases he : expand skel coords home.x home.y
          (eight_neighbors curr (skel.rows, skel.cols)) seen q0 with
      | error e => rw [he] at h; cases h
      | ok r =>
        rw [he] at h
        cases r with
        | found c =>
          injection h with h3
          rcases expand_found_mem skel coords home.x home.y _ _ _ _ he with ⟨hc1, hc2⟩
          exact Or.inr ⟨c, hc1, hc2, h3.symm⟩
        | cont seen2 q2 => exact ih seen2 q2 h2 h

theorem traverse_ok_same (skel : SkelArr) (coords : List (Int × Int)) (home : RawNode)
    (fuel : Nat) (seen q : List (Int × Int)) (h2 : RawNode)
    (h : traverse skel coords home fuel seen q = .ok h2) : SameNXY home h2 := by
  rcases traverse_ok_shape skel coords home fuel seen q h2 h with rfl | ⟨c, _, _, rfl⟩
  · exact ⟨rfl, rfl, rfl⟩
  · exact ⟨rfl, rfl, rfl⟩

theorem add_neighbors_node_go_same (skel : SkelArr) (coords : List (Int × Int)) :
    ∀ (lst : List (Option (Int × Int))) (nd n2 : RawNode),
      add_neighbors_node.go skel coords nd lst = .ok n2 → SameNXY nd n2 := by
  intro lst
  induction lst with
  | nil =>
    intro nd n2 h
    injection h with h2
    cases h2
    exact ⟨rfl, rfl, rfl⟩
  | cons o rest ih =>
    intro nd n2 h
    cases o with
    | none => cases h
    | some nbr =>
      unfold add_neighbors_node.go at h
      cases ht : traverse skel coords nd (tfuel skel) [] [nbr] with
      | error e => rw [ht] at h; cases h
      | ok nd2 =>
        rw [ht] at h
        rcases traverse_ok_same skel coords nd _ _ _ _ ht with ⟨h1, h2x, h3⟩
        rcases ih nd2 n2 h with ⟨g1, g2, g3⟩
        exact ⟨g1.trans h1, g2.trans h2x, g3.trans h3⟩

theorem add_neighbors_same (skel : SkelArr) (coords : List (Int × Int))
    (g g2 : List RawNode) (h : add_neighbors skel coords g = .ok g2) :
    List.Forall₂ SameNXY g g2 := by
  refine emapM_forall₂ _ _ ?_ g g2 h
  intro a b hab
  exact add_neighbors_node_go_same skel coords _ a b hab

theorem add_neighbors_ids (skel : SkelArr) (coords : List (Int × Int))
    (g g2 : List RawNode) (h : add_neighbors skel coords g = .ok g2) :
    ids_of g2 = ids_of g :=
  forall₂_sameNXY_ids (add_neighbors_same skel coords g g2 h)

theorem iterM_ids (f : List RawNode → Except Err (List RawNode))
    (hf : ∀ g g2, f g = .ok g2 → ids_of g2 = ids_of g) :
    ∀ (n : Nat) (g g2 : List RawNode), iterM f n g = .ok g2 → ids_of g2 = ids_of g := by
  intro n
  induction n with
  | zero =>
    intro g g2 h
    injection h with h2
    rw [h2]
  | succ n ih =>
    intro g g2 h
    unfold iterM at h
    cases hf1 : f g with
    | error e => rw [hf1] at h; cases h
    | ok g1 =>
      rw [hf1] at h
      exact (ih g1 g2 h).trans (hf g g1 hf1)

theorem set_ids_ids (graph : List RawNode) (d : Dict) (g2 : List RawNode) (d2 : Dict)
    (h : set_ids graph d = .ok (g2, d2)) : ids_of g2 = ids_of graph := by
  rcases set_ids_spec graph d g2 d2 h with ⟨-, hf⟩
  refine forall₂_sameNXY_ids (List.Forall₂.imp ?_ hf)
  intro a b hb
  exact ⟨hb.2.2.1, hb.1, hb.2.1⟩

theorem add_nodes_ids :
    ∀ (coords : List (Int × Int)) (count : Nat),
      ids_of (add_nodes coords count).1 = List.range' count coords.length := by
  intro coords
  induction coords with
  | nil => intro count; rfl
  | cons c rest ih =>
    intro count
    simp only [add_nodes, ids_of, List.map_cons, List.length_cons, List.range'_succ]
    rw [← ids_of]
    rw [ih (count + 1)]

theorem add_nodes_nodup (coords : List (Int × Int)) (count : Nat) :
    (ids_of (add_nodes coords count).1).Nodup := by
  rw [add_nodes_ids]
  exact List.nodup_range' count coords.length 1 (by norm_num)

theorem prune_sublist (g : List RawNode) (t : Int) :
    List.Sublist (prune_graph g t) g := by
  unfold prune_graph
  have h1 : List.Sublist (g.enum.filter (fun p => decide (p.1 ∉ prune_mark g t))) g.enum :=
    List.filter_sublist g.enum
  have h2 := h1.map (fun p : Nat × RawNode => p.2)
  rwa [show g.enum.map (fun p : Nat × RawNode => p.2) = g from List.enum_map_snd g] at h2

theorem prune_ids_sublist (g : List RawNode) (t : Int) :
    List.Sublist (ids_of (prune_graph g t)) (ids_of g) :=
  (prune_sublist g t).map (fun n : RawNode => n.id)

theorem map_set_same {α β : Type} (f : α → β) :
    ∀ (l : List α) (i : Nat) (a : α), (∀ b, l[i]? = some b → f a = f b) →
      (l.set i a).map f = l.map f := by
  intro l
  induction l with
  | nil => intro i a _; rfl
  | cons x xs ih =>
    intro i a h
    cases i with
    | zero =>
      simp only [List.set_cons_zero, List.map_cons]
      rw [h x (by simp)]
    | succ n =>
      simp only [List.set_cons_succ, List.map_cons]
      rw [ih n a (fun b hb => h b (by simpa using hb))]

theorem sym_step_cases (g : List RawNode) (p : Nat × Nat) :
    (sym_step g p = g ∧
      (p.1 = p.2 ∨ g[p.1]? = none ∨ g[p.2]? = none ∨
        ∃ node other, g[p.1]? = some node ∧ g[p.2]? = some other ∧
          (NRef.id node.id ∉ other.nbrs ∨ NRef.id other.id ∈ node.nbrs))) ∨
    (p.1 ≠ p.2 ∧ ∃ node other, g[p.1]? = some node ∧ g[p.2]? = some other ∧
      NRef.id node.id ∈ other.nbrs ∧ NRef.id other.id ∉ node.nbrs ∧
      sym_step g p = g.set p.1 { node with nbrs := sadd node.nbrs (NRef.id other.id) }) := by
  unfold sym_step
  split
  · rename_i hp
    exact Or.inl ⟨rfl, Or.inl hp⟩
  · rename_i hp
    split
    · rename_i node other h1 h2
      split
      · rename_i hcond
        exact Or.inr ⟨hp, node, other, h1, h2, hcond.1, hcond.2, rfl⟩
      · rename_i hcond
        refine Or.inl ⟨rfl, Or.inr (Or.inr (Or.inr ⟨node, other, h1, h2, ?_⟩))⟩
        by_cases hin : NRef.id node.id ∈ other.nbrs
        · by_cases hout : NRef.id other.id ∈ node.nbrs
          · exact Or.inr hout
          · exact absurd ⟨hin, hout⟩ hcond
        · exact Or.inl hin
    · rename_i hwild
      refine Or.inl ⟨rfl, ?_⟩
      cases h1 : g[p.1]? with
      | none => exact Or.inr (Or.inl rfl)
      | some node =>
        cases h2 : g[p.2]? with
        | none => exact Or.inr (Or.inr (Or.inl rfl))
        | some other => exact (hwild node other h1 h2).elim

theorem sym_step_ids (g : List RawNode) (p : Nat × Nat) :
    ids_of (sym_step g p) = ids_of g := by
  rcases sym_step_cases g p with ⟨heq, -⟩ | ⟨-, node, other, h1, -, -, -, heq⟩
  · rw [heq]
  · rw [heq]
    refine map_set_same (fun n : RawNode => n.id) g p.1 _ ?_
    intro b hb
    rw [h1] at hb
    injection hb with hb2
    rw [hb2]

theorem sym_step_length (g : List RawNode) (p : Nat × Nat) :
    (sym_step g p).length = g.length := by
  have h := sym_step_ids g p
  have h1 : (ids_of (sym_step g p)).length = (ids_of g).length := by rw [h]
  simpa [ids_of] using h1

theorem ids_nodup_id_inj (g : List RawNode) (hnd : (ids_of g).Nodup)
    (i j : Nat) (a b : RawNode) (ha : g[i]? = some a) (hb : g[j]? = some b)
    (hid : a.id = b.id) : i = j := by
  have hia : (ids_of g)[i]? = some a.id := by
    rw [ids_of, List.getElem?_map, ha]; rfl
  have hjb : (ids_of g)[j]? = some b.id := by
    rw [ids_of, List.getElem?_map, hb]; rfl
  have hi : i < (ids_of g).length := by
    rcases List.getElem?_eq_some.mp hia with ⟨hlt, -⟩
    exact hlt
  exact List.getElem?_inj hi hnd (by rw [hia, hjb, hid])

theorem sym_step_symAt (g : List RawNode) (p : Nat × Nat) (hp : p.1 ≠ p.2) :
    SymAt (sym_step g p) p.1 p.2 := by
  intro a2 b2 ha2 hb2 hmem
  rcases sym_step_cases g p with ⟨heq, hreason⟩ | ⟨-, node, other, h1, h2, hin, hout, heq⟩
  · rw [heq] at ha2 hb2
    rcases hreason with hpp | hn1 | hn2 | ⟨node, other, h1, h2, hfail⟩
    · exact absurd hpp hp
    · rw [hn1] at ha2; cases ha2
    · rw [hn2] at hb2; cases hb2
    · rw [h1] at ha2
      injection ha2 with ha3
      rw [h2] at hb2
      injection hb2 with hb3
      rw [← ha3] at hmem ⊢
      rw [← hb3] at hmem ⊢
      rcases hfail with hfail | hfail
      · exact absurd hmem hfail
      · exact hfail
  · have hlt : p.1 < g.length := by
      rcases List.getElem?_eq_some.mp h1 with ⟨hlt, -⟩
      exact hlt
    rw [heq, List.getElem?_set_eq_of_lt _ hlt] at ha2
    injection ha2 with ha3
    rw [heq, List.getElem?_set_ne (fun he => hp he), h2] at hb2
    injection hb2 with hb3
    rw [← ha3, ← hb3]
    exact mem_sadd.mpr (Or.inr rfl)

theorem sym_step_preserve (g : List RawNode) (p : Nat × Nat) (hnd : (ids_of g).Nodup)
    (i j : Nat) (hsym : SymAt g i j) : SymAt (sym_step g p) i j := by
  intro a2 b2 ha2 hb2 hmem
  rcases sym_step_cases g p with ⟨heq, -⟩ | ⟨hp, node, other, h1, h2, hin, hout, heq⟩
  · rw [heq] at ha2 hb2
    exact hsym _ _ ha2 hb2 hmem
  · have hlt : p.1 < g.length := by
      rcases List.getElem?_eq_some.mp h1 with ⟨hlt, -⟩
      exact hlt
    rw [heq] at ha2 hb2
    by_cases hip : i = p.1
    · subst hip
      rw [List.getElem?_set_eq_of_lt _ hlt] at ha2
      injection ha2 with ha3
      by_cases hjp : j = p.1
      · subst hjp
        rw [List.getElem?_set_eq_of_lt _ hlt] at hb2
        injection hb2 with hb3
        rw [← ha3, ← hb3] at hmem ⊢
        exact hmem
      · rw [List.getElem?_set_ne (fun he => hjp he.symm)] at hb2
        have hmem2 : NRef.id node.id ∈ b2.nbrs := by
          rw [← ha3] at hmem
          exact hmem
        have hstep := hsym node b2 h1 hb2 hmem2
        rw [← ha3]
        exact mem_sadd.mpr (Or.inl hstep)
    · rw [List.getElem?_set_ne (fun he => hip he.symm)] at ha2
      by_cases hjp : j = p.1
      · subst hjp
        rw [List.getElem?_set_eq_of_lt _ hlt] at hb2
        injection hb2 with hb3
        have hmem2 : NRef.id a2.id ∈ sadd node.nbrs (NRef.id other.id) := by
          rw [← hb3] at hmem
          exact hmem
        rcases mem_sadd.mp hmem2 with hmem3 | heq2
        · have hconc := hsym a2 node ha2 h1 hmem3
          have hgoal : NRef.id node.id ∈ a2.nbrs := hconc
          rw [← hb3]
          exact hgoal
        · injection heq2 with heq3
          have hij : i = p.2 := ids_nodup_id_inj g hnd i p.2 a2 other ha2 h2 heq3
          subst hij
          rw [ha2] at h2
          injection h2 with h3
          rw [← hb3]
          show NRef.id node.id ∈ a2.nbrs
          rw [h3]
          exact hin
      · rw [List.getElem?_set_ne (fun he => hjp he.symm)] at hb2
        exact hsym a2 b2 ha2 hb2 hmem

theorem foldl_sym_step_ids :
    ∀ (L : List (Nat × Nat)) (g : List RawNode), ids_of (L.foldl sym_step g) = ids_of g := by
  intro L
  induction L with
  | nil => intro g; rfl
  | cons p L ih =>
    intro g
    simp only [List.foldl_cons]
    rw [ih (sym_step g p), sym_step_ids]

theorem foldl_sym_step_preserve (L : List (Nat × Nat)) :
    ∀ (g : List RawNode), (ids_of g).Nodup →
      ∀ i j, SymAt g i j → SymAt (L.foldl sym_step g) i j := by
  induction L with
  | nil => intro g _ i j hs; exact hs
  | cons p L ih =>
    intro g hnd i j hs
    simp only [List.foldl_cons]
    exact ih (sym_step g p) (by rw [sym_step_ids]; exact hnd) i j
      (sym_step_preserve g p hnd i j hs)

theorem foldl_sym_step_establish (L : List (Nat × Nat)) :
    ∀ (g : List RawNode), (ids_of g).Nodup →
      ∀ p ∈ L, p.1 ≠ p.2 → SymAt (L.foldl sym_step g) p.1 p.2 := by
  induction L with
  | nil => intro g _ p hp; cases hp
  | cons q L ih =>
    intro g hnd p hp hne
    rcases List.mem_cons.mp hp with rfl | hp2
    · simp only [List.foldl_cons]
      exact foldl_sym_step_preserve L (sym_step g p) (by rw [sym_step_ids]; exact hnd)
        p.1 p.2 (sym_step_symAt g p hne)
    · simp only [List.foldl_cons]
      exact ih (sym_step g q) (by rw [sym_step_ids]; exact hnd) p hp2 hne

theorem sym_pairs_mem (n i j : Nat) (hi : i < n) (hj : j < n) : (i, j) ∈ sym_pairs n := by
  unfold sym_pairs
  apply List.mem_flatten.mpr
  exact ⟨(List.range n).map (fun j => (i, j)),
    List.mem_map_of_mem _ (List.mem_range.mpr hi),
    List.mem_map_of_mem _ (List.mem_range.mpr hj)⟩

theorem make_graph_symmetrical_ids (g : List RawNode) :
    ids_of (make_graph_symmetrical g) = ids_of g :=
  foldl_sym_step_ids _ g

theorem make_graph_symmetrical_symm (g : List RawNode) (hnd : (ids_of g).Nodup) :
    SymmRaw (make_graph_symmetrical g) := by
  intro a ha b hb
  rcases List.getElem?_of_mem ha with ⟨i, hi⟩
  rcases List.getElem?_of_mem hb with ⟨j, hj⟩
  have hlen : (make_graph_symmetrical g).length = g.length := by
    have h1 : (ids_of (make_graph_symmetrical g)).length = (ids_of g).length := by
      rw [make_graph_symmetrical_ids]
    simpa [ids_of] using h1
  have hilt : i < g.length := by
    rcases List.getElem?_eq_some.mp hi with ⟨hlt, -⟩
    rw [hlen] at hlt
    exact hlt
  have hjlt : j < g.length := by
    rcases List.getElem?_eq_some.mp hj with ⟨hlt, -⟩
    rw [hlen] at hlt
    exact hlt
  by_cases hij : i = j
  · subst hij
    rw [hi] at hj
    injection hj with hj2
    rw [hj2]
  · constructor
    · intro hmemb
      exact foldl_sym_step_establish (sym_pairs g.length) g hnd (j, i)
        (sym_pairs_mem g.length j i hjlt hilt) (fun he => hij he.symm) b a hj hi hmemb
    · intro hmema
      exact foldl_sym_step_establish (sym_pairs g.length) g hnd (i, j)
        (sym_pairs_mem g.length i j hilt hjlt) hij a b hi hj hmema

theorem id_in_graph_of_mem {g : List RawNode} {b : RawNode} (hb : b ∈ g) :
    id_in_graph (NRef.id b.id) g = true := by
  unfold id_in_graph
  rw [List.any_eq_true]
  exact ⟨b, hb, by simp⟩

theorem remove_dangling_symm (g : List RawNode) (hs : SymmRaw g) :
    SymmRaw (remove_dangling g) := by
  intro a2 ha2 b2 hb2
  rcases List.mem_map.mp ha2 with ⟨a, ha, rfl⟩
  rcases List.mem_map.mp hb2 with ⟨b, hb, rfl⟩
  simp only [List.mem_filter]
  rw [id_in_graph_of_mem ha, id_in_graph_of_mem hb]
  have := hs a ha b hb
  simp [this]

theorem remove_dangling_nodangling (g : List RawNode) :
    NoDanglingRaw (remove_dangling g) := by
  intro a2 ha2 r hr
  rcases List.mem_map.mp ha2 with ⟨a, ha, rfl⟩
  have hr2 := List.mem_filter.mp hr
  rcases List.any_eq_true.mp hr2.2 with ⟨b, hb, hbr⟩
  have heq : NRef.id b.id = r := of_decide_eq_true hbr
  refine ⟨{ b with nbrs := b.nbrs.filter (fun r => id_in_graph r g) }, List.mem_map_of_mem _ hb, heq.symm⟩

theorem pipeline_after_prune_inv (skel : SkelArr) (pruned : List RawNode) (ids : Dict)
    (pg : List RawNode) (hnd : (ids_of pruned).Nodup)
    (h : pipeline_after_prune skel pruned ids = .ok pg) :
    SymmRaw pg ∧ NoDanglingRaw pg := by
  unfold pipeline_after_prune at h
  split at h
  · cases h
  · split at h
    · cases h
    · rename_i xa p2 e3 xb p3 d3 e4
      injection h with h2
      have hnd3 : (ids_of p3).Nodup := by
        rw [set_ids_ids p2 ids p3 d3 e4, add_neighbors_ids skel _ pruned p2 e3]
        exact hnd
      have hsym := make_graph_symmetrical_symm p3 hnd3
      rw [← h2]
      exact ⟨remove_dangling_symm _ hsym, remove_dangling_nodangling _⟩

theorem compute_pixel_graph_inv (skel : SkelArr) (corners : List (Int × Int)) (count : Nat)
    (pg : List RawNode) (h : compute_pixel_graph skel corners count = .ok pg) :
    SymmRaw pg ∧ NoDanglingRaw pg := by
  unfold compute_pixel_graph at h
  split at h
  · cases h
  · split at h
    · cases h
    · rename_i xa g1 e1 xb g2 ids e2
      have hnd0 : (ids_of g1).Nodup := by
        rw [iterM_ids _ (fun g g2 => add_neighbors_ids skel _ g g2) 10 _ g1 e1]
        exact add_nodes_nodup _ count
      have hnd2 : (ids_of g2).Nodup := by
        rw [set_ids_ids g1 [] g2 ids e2]
        exact hnd0
      have hndp : (ids_of (prune_graph (make_graph_symmetrical g2) 100)).Nodup := by
        refine List.Nodup.sublist (prune_ids_sublist _ 100) ?_
        rw [make_graph_symmetrical_ids]
        exact hnd2
      exact pipeline_after_prune_inv skel _ ids pg hndp h

/-- C1: every graph returned by `compute_graph` has symmetric adjacency
(`b.id ∈ a.neighbors ⇔ a.id ∈ b.neighbors`) and no dangling references
(every neighbor entry is the id of a node of the same graph). -/
theorem returned_graph_symmetric_no_dangling (skel : SkelArr) (corners : List (Int × Int))
    (count : Nat) (res : ℚ) (off : ℚ × ℚ) (out : List SNode)
    (h : compute_graph skel corners count res off = .ok out) :
    SymmS out ∧ NoDanglingS out := by
  unfold compute_graph at h
  cases hp : compute_pixel_graph skel corners count with
  | error e => rw [hp] at h; cases h
  | ok pg =>
    rw [hp] at h
    injection h with h2
    rcases compute_pixel_graph_inv skel corners count pg hp with ⟨hs, hd⟩
    rw [← h2]
    constructor
    · intro a2 ha2 b2 hb2
      rcases List.mem_map.mp ha2 with ⟨a, ha, rfl⟩
      rcases List.mem_map.mp hb2 with ⟨b, hb, rfl⟩
      simpa [serialize_node] using hs a ha b hb
    · intro a2 ha2 r hr
      rcases List.mem_map.mp ha2 with ⟨a, ha, rfl⟩
      rcases hd a ha r (by simpa [serialize_node] using hr) with ⟨b, hb, hbr⟩
      exact ⟨serialize_node res off b, List.mem_map_of_mem _ hb, hbr⟩

/-- C1 witnessed on a concrete returned graph. -/
theorem returned_graph_symmetric_no_dangling_witness :
    SymmS [⟨10, 10, 0, []⟩] ∧ NoDanglingS [⟨10, 10, 0, []⟩] :=
  returned_graph_symmetric_no_dangling skelA cornersA 0 1 (0, 0) [⟨10, 10, 0, []⟩] computeA_first

/-! ### C8 — the neighbor-discovery walk

The claim calls the walk a bounded *breadth-first* traversal that visits
each pixel at most once.  The source pushes and pops the deque at the
same end (`append`/`pop`), a stack, and its own docstring says "depth
first"; moreover the start pixel is not placed in the seen-set, so it can
be pushed and expanded a second time.  On `skelC` the stack walk and the
spec's queue walk produce different visit traces (and in general even
different neighbors), and the stack trace repeats the start pixel. -/

/-- C8 counterexample: the source walk is not the breadth-first walk
(the two runs on `skelC` differ), and its visit trace holds the start
pixel twice. -/
theorem traverse_not_breadth_first :
    ¬ ClaimC8 ∧
    traverseT skelC [(4, 2)] homeC (tfuel skelC) [] [(4, 5)] [] =
      .ok (⟨5, 5, 0, [NRef.coord (4, 2)]⟩, [(4, 5), (3, 4), (2, 3), (4, 5), (4, 3)]) ∧
    traverse_bfs skelC [(4, 2)] homeC (tfuel skelC) [] [(4, 5)] [] =
      .ok (⟨5, 5, 0, [NRef.coord (4, 2)]⟩, [(4, 5), (4, 4), (3, 4), (4, 3)]) ∧
    ¬ ([(4, 5), (3, 4), (2, 3), (4, 5), (4, 3)] : List (Int × Int)).Nodup := by
  refine ⟨?_, by decide, by decide, by decide⟩
  intro h
  rcases h skelC [(4, 2)] homeC (4, 5) with ⟨h1, -⟩
  exact absurd h1 (by decide)

theorem traverse_eq_traverseT (skel : SkelArr) (coords : List (Int × Int)) (home : RawNode) :
    ∀ (fuel : Nat) (seen q tr : List (Int × Int)),
      traverse skel coords home fuel seen q =
        Except.map Prod.fst (traverseT skel coords home fuel seen q tr) := by
  intro fuel
  induction fuel with
  | zero => intro seen q tr; rfl
  | succ fuel ih =>
    intro seen q tr
    cases q with
    | nil => rfl
    | cons curr q0 =>
      unfold traverse traverseT
      cases expand skel coords home.x home.y
          (eight_neighbors curr (skel.rows, skel.cols)) seen q0 with
      | error e => rfl
      | ok r =>
        cases r with
        | found c => rfl
        | cont seen2 q2 => exact ih seen2 q2 (tr ++ [curr])

theorem npGet_error_eq (skel : SkelArr) (y x : Int) (e : Err)
    (h : npGet skel y x = .error e) : e = .indexError := by
  unfold npGet at h
  split at h
  · cases h
  · injection h with h2
    exact h2.symm

theorem npGet_ok_valid (skel : SkelArr) (y x : Int) (b : Bool)
    (h : npGet skel y x = .ok b) : (x, y) ∈ validSet skel := by
  unfold npGet at h
  split at h
  · rename_i hcond
    rw [validSet, Finset.mem_product]
    constructor
    · rw [Finset.mem_Ico]
      exact ⟨hcond.2.2.1, hcond.2.2.2⟩
    · rw [Finset.mem_Ico]
      exact ⟨hcond.1, hcond.2.1⟩
  · cases h

theorem expand_error_eq (skel : SkelArr) (coords : List (Int × Int)) (hx hy : Int) :
    ∀ (lst : List (Option (Int × Int))) (seen q : List (Int × Int)) (e : Err),
      expand skel coords hx hy lst seen q = .error e → e = .indexError := by
  intro lst
  induction lst with
  | nil => intro seen q e h; cases h
  | cons o rest ih =>
    intro seen q e h
    cases o with
    | none => exact ih seen q e h
    | some nbr =>
      unfold expand at h
      split at h
      · exact ih seen q e h
      · split at h
        · rename_i e2 hg
          injection h with h2
          rw [← h2]
          exact npGet_error_eq skel nbr.2 nbr.1 e2 hg
        · split at h
          · cases h
          · exact ih _ _ e h

theorem unseenCount_cons_le (skel : SkelArr) (seen : List (Int × Int)) (c : Int × Int) :
    unseenCount skel (c :: seen) ≤ unseenCount skel seen := by
  unfold unseenCount
  refine Finset.card_le_card ?_
  intro x hx
  rw [Finset.mem_filter] at hx ⊢
  refine ⟨hx.1, ?_⟩
  have hx2 := hx.2
  simp only [List.mem_cons, not_or] at hx2
  exact hx2.2

theorem unseenCount_cons_valid (skel : SkelArr) (seen : List (Int × Int)) (c : Int × Int)
    (hc : c ∈ validSet skel) (hs : c ∉ seen) :
    unseenCount skel (c :: seen) + 1 = unseenCount skel seen := by
  unfold unseenCount
  have heq : (validSet skel).filter (fun x => x ∉ (c :: seen)) =
      ((validSet skel).filter (fun x => x ∉ seen)).erase c := by
    ext x
    simp only [Finset.mem_filter, Finset.mem_erase, List.mem_cons, not_or]
    constructor
    · rintro ⟨hv, hne, hns⟩
      exact ⟨hne, hv, hns⟩
    · rintro ⟨hne, hv, hns⟩
      exact ⟨hv, hne, hns⟩
  rw [heq]
  have hmem : c ∈ (validSet skel).filter (fun x => x ∉ seen) := by
    rw [Finset.mem_filter]
    exact ⟨hc, by simpa using hs⟩
  rw [Finset.card_erase_of_mem hmem]
  have hpos : 0 < ((validSet skel).filter (fun x => x ∉ seen)).card :=
    Finset.card_pos.mpr ⟨c, hmem⟩
  omega

theorem expand_measure (skel : SkelArr) (coords : List (Int × Int)) (hx hy : Int) :
    ∀ (lst : List (Option (Int × Int))) (seen q seen2 q2 : List (Int × Int)),
      expand skel coords hx hy lst seen q = .ok (.cont seen2 q2) →
      q2.length + unseenCount skel seen2 ≤ q.length + unseenCount skel seen := by
  intro lst
  induction lst with
  | nil =>
    intro seen q seen2 q2 h
    injection h with h2
    injection h2 with h3 h4
    rw [← h3, ← h4]
  | cons o rest ih =>
    intro seen q seen2 q2 h
    cases o with
    | none => exact ih seen q seen2 q2 h
    | some nbr =>
      unfold expand at h
      split at h
      · exact ih seen q seen2 q2 h
      · rename_i hs
        split at h
        · cases h
        · rename_i b hg
          split at h
          · cases h
          · have hrec := ih _ _ seen2 q2 h
            cases b with
            | true =>
              have hv : nbr ∈ validSet skel := npGet_ok_valid skel nbr.2 nbr.1 true hg
              have hU := unseenCount_cons_valid skel seen nbr hv hs
              simp at hrec
              omega
            | false =>
              have hU := unseenCount_cons_le skel seen nbr
              simp at hrec
              omega

theorem traverseT_no_fuelOut (skel : SkelArr) (coords : List (Int × Int)) (home : RawNode) :
    ∀ (fuel : Nat) (seen q tr : List (Int × Int)),
      q.length + unseenCount skel seen < fuel →
      traverseT skel coords home fuel seen q tr ≠ .error .fuelOut := by
  intro fuel
  induction fuel with
  | zero => intro seen q tr h; exact absurd h (Nat.not_lt_zero _)
  | succ fuel ih =>
    intro seen q tr h hcon
    cases q with
    | nil => cases hcon
    | cons curr q0 =>
      unfold traverseT at hcon
      cases he : expand skel coords home.x home.y
          (eight_neighbors curr (skel.rows, skel.cols)) seen q0 with
      | error e =>
        rw [he] at hcon
        injection hcon with h2
        have := expand_error_eq skel coords home.x home.y _ _ _ _ he
        rw [this] at h2
        cases h2
      | ok r =>
        rw [he] at hcon
        cases r with
        | found c => cases hcon
        | cont seen2 q2 =>
          have hm := expand_measure skel coords home.x home.y _ _ _ _ _ he
          have hlt : q2.length + unseenCount skel seen2 < fuel := by
            simp only [List.length_cons] at h
            omega
          exact ih seen2 q2 (tr ++ [curr]) hlt hcon

theorem validSet_card (skel : SkelArr) :
    (validSet skel).card = 4 * skel.rows * skel.cols := by
  unfold validSet
  rw [Finset.card_product, Int.card_Ico, Int.card_Ico]
  have h1 : ((skel.cols : Int) - -(skel.cols : Int)).toNat = 2 * skel.cols := by omega
  have h2 : ((skel.rows : Int) - -(skel.rows : Int)).toNat = 2 * skel.rows := by omega
  rw [h1, h2]
  ring

theorem traverseT_tfuel_no_fuelOut (skel : SkelArr) (coords : List (Int × Int))
    (home : RawNode) (start : Int × Int) :
    traverseT skel coords home (tfuel skel) [] [start] [] ≠ .error .fuelOut := by
  refine traverseT_no_fuelOut skel coords home (tfuel skel) [] [start] [] ?_
  have h1 : unseenCount skel [] ≤ (validSet skel).card := Finset.card_filter_le _ _
  rw [validSet_card] at h1
  unfold tfuel
  simp only [List.length_cons, List.length_nil]
  omega

theorem expand_count (skel : SkelArr) (coords : List (Int × Int)) (hx hy : Int) :
    ∀ (lst : List (Option (Int × Int))) (seen q seen2 q2 : List (Int × Int)),
      expand skel coords hx hy lst seen q = .ok (.cont seen2 q2) →
      ∀ p : Int × Int,
        (List.count p q2 ≤ List.count p q + (if p ∈ seen2 ∧ p ∉ seen then 1 else 0)) ∧
        (p ∈ seen → p ∈ seen2) ∧ (p ∈ seen → List.count p q2 ≤ List.count p q) := by
  intro lst
  induction lst with
  | nil =>
    intro seen q seen2 q2 h p
    injection h with h2
    injection h2 with h3 h4
    subst h3
    subst h4
    exact ⟨Nat.le_add_right _ _, fun hp => hp, fun _ => Nat.le_refl _⟩
  | cons o rest ih =>
    intro seen q seen2 q2 h p
    cases o with
    | none => exact ih seen q seen2 q2 h p
    | some nbr =>
      unfold expand at h
      split at h
      · exact ih seen q seen2 q2 h p
      · rename_i hs
        split at h
        · cases h
        · rename_i b hg
          split at h
          · cases h
          · have hrec := ih _ _ seen2 q2 h p
            have hmono : p ∈ nbr :: seen → p ∈ seen2 := hrec.2.1
            by_cases hpn : p = nbr
            · subst hpn
              have hp2 : p ∈ seen2 := hmono (List.mem_cons_self _ _)
              have hcount : List.count p (if b then p :: q else q) ≤ List.count p q + 1 := by
                cases b with
                | true => simp [List.count_cons]
                | false => simp
              refine ⟨?_, fun hp => hmono (List.mem_cons_of_mem _ hp), fun hp => absurd hp hs⟩
              have := hrec.2.2 (List.mem_cons_self _ _)
              calc List.count p q2 ≤ List.count p (if b then p :: q else q) := this
                _ ≤ List.count p q + 1 := hcount
                _ = List.count p q + (if p ∈ seen2 ∧ p ∉ seen then 1 else 0) := by
                    rw [if_pos ⟨hp2, hs⟩]
            · have hq : List.count p (if b then nbr :: q else q) = List.count p q := by
                cases b with
                | true => simp [List.count_cons, hpn]
                | false => simp
              have hseeniff : (p ∈ nbr :: seen) ↔ p ∈ seen := by
                simp [List.mem_cons, hpn]
              refine ⟨?_, fun hp => hmono (List.mem_cons_of_mem _ hp), fun hp => ?_⟩
              · have h1 := hrec.1
                rw [hq] at h1
                refine h1.trans (Nat.add_le_add_left ?_ _)
                by_cases hcase : p ∈ seen2 ∧ p ∉ nbr :: seen
                · rw [if_pos hcase, if_pos ⟨hcase.1, fun hp => hcase.2 (List.mem_cons_of_mem _ hp)⟩]
                · rw [if_neg hcase]
                  exact Nat.zero_le _
              · have h3 := hrec.2.2 (hseeniff.mpr hp)
                rw [hq] at h3
                exact h3

theorem expand_pushed_skel (skel : SkelArr) (coords : List (Int × Int)) (hx hy : Int) :
    ∀ (lst : List (Option (Int × Int))) (seen q seen2 q2 : List (Int × Int)),
      expand skel coords hx hy lst seen q = .ok (.cont seen2 q2) →
      ∀ p ∈ q2, p ∈ q ∨ npGet skel p.2 p.1 = .ok true := by
  intro lst
  induction lst with
  | nil =>
    intro seen q seen2 q2 h p hp
    injection h with h2
    injection h2 with h3 h4
    subst h4
    exact Or.inl hp
  | cons o rest ih =>
    intro seen q seen2 q2 h p hp
    cases o with
    | none => exact ih seen q seen2 q2 h p hp
    | some nbr =>
      unfold expand at h
      split at h
      · exact ih seen q seen2 q2 h p hp
      · rename_i hs
        split at h
        · cases h
        · rename_i b hg
          split at h
          · cases h
          · rcases ih _ _ seen2 q2 h p hp with hin | hskel
            · cases b with
              | true =>
                rcases List.mem_cons.mp hin with rfl | hin2
                · exact Or.inr hg
                · exact Or.inl hin2
              | false => exact Or.inl hin
            · exact Or.inr hskel

theorem traverseT_count (skel : SkelArr) (coords : List (Int × Int)) (home : RawNode)
    (start : Int × Int) :
    ∀ (fuel : Nat) (seen q tr : List (Int × Int)) (h2 : RawNode) (tr2 : List (Int × Int)),
      traverseT skel coords home fuel seen q tr = .ok (h2, tr2) →
      (∀ p, p ≠ start → List.count p q + List.count p tr ≤ (if p ∈ seen then 1 else 0)) →
      (List.count start q + List.count start tr ≤ (if start ∈ seen then 2 else 1)) →
      (∀ p, p ≠ start → List.count p tr2 ≤ 1) ∧ List.count start tr2 ≤ 2 := by
  intro fuel
  induction fuel with
  | zero => intro seen q tr h2 tr2 h; cases h
  | succ fuel ih =>
    intro seen q tr h2 tr2 h hinv1 hinv2
    cases q with
    | nil =>
      injection h with h3
      injection h3 with h4 h5
      subst h5
      constructor
      · intro p hp
        have := hinv1 p hp
        by_cases hps : p ∈ seen <;> simp [hps] at this <;> omega
      · have := hinv2
        by_cases hss : start ∈ seen <;> simp [hss] at this <;> omega
    | cons curr q0 =>
      unfold traverseT at h
      cases he : expand skel coords home.x home.y
          (eight_neighbors curr (skel.rows, skel.cols)) seen q0 with
      | error e => rw [he] at h; cases h
      | ok r =>
        rw [he] at h
        cases r with
        | found c =>
          injection h with h3
          injection h3 with h4 h5
          subst h5
          constructor
          · intro p hp
            have := hinv1 p hp
            have hc : List.count p (tr ++ [curr]) = List.count p tr + List.count p [curr] :=
              List.count_append p tr [curr]
            have hcc : List.count p [curr] ≤ List.count p (curr :: q0) := by
              simp [List.count_cons]
            by_cases hps : p ∈ seen <;> simp [hps] at this <;> omega
          · have := hinv2
            have hc : List.count start (tr ++ [curr]) =
                List.count start tr + List.count start [curr] :=
              List.count_append start tr [curr]
            have hcc : List.count start [curr] ≤ List.count start (curr :: q0) := by
              simp [List.count_cons]
            by_cases hss : start ∈ seen <;> simp [hss] at this <;> omega
        | cont seen2 q2 =>
          refine ih seen2 q2 (tr ++ [curr]) h2 tr2 h ?_ ?_
          · intro p hp
            have hold := hinv1 p hp
            have hexp := expand_count skel coords home.x home.y _ _ _ _ _ he p
            have hc : List.count p (tr ++ [curr]) = List.count p tr + List.count p [curr] :=
              List.count_append p tr [curr]
            have hcq : List.count p (curr :: q0) = List.count p q0 + List.count p [curr] := by
              simp [List.count_cons]
            have h1 := hexp.1
            have hmono := hexp.2.1
            by_cases hps : p ∈ seen
            · have hps2 : p ∈ seen2 := hmono hps
              have h3 := hexp.2.2 hps
              simp [hps] at hold
              simp [hps2]
              omega
            · simp [hps] at hold
              by_cases hps2 : p ∈ seen2
              · rw [if_pos ⟨hps2, hps⟩] at h1
                simp [hps2]
                omega
              · rw [if_neg (fun hand => hps2 hand.1)] at h1
                simp [hps2]
                omega
          · have hold := hinv2
            have hexp := expand_count skel coords home.x home.y _ _ _ _ _ he start
            have hc : List.count start (tr ++ [curr]) =
                List.count start tr + List.count start [curr] :=
              List.count_append start tr [curr]
            have hcq : List.count start (curr :: q0) =
                List.count start q0 + List.count start [curr] := by
              simp [List.count_cons]
            have h1 := hexp.1
            have hmono := hexp.2.1
            by_cases hss : start ∈ seen
            · have hss2 : start ∈ seen2 := hmono hss
              have h3 := hexp.2.2 hss
              simp [hss] at hold
              simp [hss2]
              omega
            · simp [hss] at hold
              by_cases hss2 : start ∈ seen2
              · rw [if_pos ⟨hss2, hss⟩] at h1
                simp [hss2]
                omega
              · rw [if_neg (fun hand => hss2 hand.1)] at h1
                simp [hss2]
                omega

theorem traverseT_trace_skel (skel : SkelArr) (coords : List (Int × Int)) (home : RawNode)
    (start : Int × Int) :
    ∀ (fuel : Nat) (seen q tr : List (Int × Int)) (h2 : RawNode) (tr2 : List (Int × Int)),
      traverseT skel coords home fuel seen q tr = .ok (h2, tr2) →
      (∀ p ∈ q, p = start ∨ npGet skel p.2 p.1 = .ok true) →
      (∀ p ∈ tr, p = start ∨ npGet skel p.2 p.1 = .ok true) →
      ∀ p ∈ tr2, p = start ∨ npGet skel p.2 p.1 = .ok true := by
  intro fuel
  induction fuel with
  | zero => intro seen q tr h2 tr2 h; cases h
  | succ fuel ih =>
    intro seen q tr h2 tr2 h hq htr
    cases q with
    | nil =>
      injection h with h3
      injection h3 with h4 h5
      subst h5
      exact htr
    | cons curr q0 =>
      unfold traverseT at h
      cases he : expand skel coords home.x home.y
          (eight_neighbors curr (skel.rows, skel.cols)) seen q0 with
      | error e => rw [he] at h; cases h
      | ok r =>
        rw [he] at h
        cases r with
        | found c =>
          injection h with h3
          injection h3 with h4 h5
          subst h5
          intro p hp
          rcases List.mem_append.mp hp with hp2 | hp2
          · exact htr p hp2
          · rcases List.mem_singleton.mp hp2 with rfl
            exact hq p (List.mem_cons_self _ _)
        | cont seen2 q2 =>
          refine ih seen2 q2 (tr ++ [curr]) h2 tr2 h ?_ ?_
          · intro p hp
            rcases expand_pushed_skel skel coords home.x home.y _ _ _ _ _ he p hp with hin | hsk
            · exact hq p (List.mem_cons_of_mem _ hin)
            · exact Or.inr hsk
          · intro p hp
            rcases List.mem_append.mp hp with hp2 | hp2
            · exact htr p hp2
            · rcases List.mem_singleton.mp hp2 with rfl
              exact hq p (List.mem_cons_self _ _)

/-- C8 amended: the walk started from `start` is the *depth-first*
(stack-order) traversal the source implements; with the pipeline's fuel
it is bounded (the fuel is never exhausted); every visited pixel other
than the start was skeleton-true when pushed; every pixel other than the
start is visited at most once via the walk-scoped seen-set, the start —
which is not pre-seeded into that set — at most twice; and the walk adds
at most one neighbor to the originating node: a keypoint other than the
node's own coordinate, at which point it stops. -/
theorem traverse_walk_spec (skel : SkelArr) (coords : List (Int × Int)) (home : RawNode)
    (start : Int × Int) (fuel : Nat) :
    traverse skel coords home fuel [] [start] =
      Except.map Prod.fst (traverseT skel coords home fuel [] [start] []) ∧
    (∀ h2 tr, traverseT skel coords home fuel [] [start] [] = .ok (h2, tr) →
      (h2.nbrs = home.nbrs ∨ ∃ c, c ∈ coords ∧ c ≠ (home.x, home.y) ∧
        h2.nbrs = sadd home.nbrs (NRef.coord c)) ∧
      (∀ p ∈ tr, p ≠ start → npGet skel p.2 p.1 = .ok true) ∧
      (∀ p, p ≠ start → List.count p tr ≤ 1) ∧ List.count start tr ≤ 2) ∧
    (tfuel skel ≤ fuel → traverseT skel coords home fuel [] [start] [] ≠ .error .fuelOut) := by
  refine ⟨traverse_eq_traverseT skel coords home fuel [] [start] [], ?_, ?_⟩
  · intro h2 tr h
    have hshape : traverse skel coords home fuel [] [start] = .ok h2 := by
      rw [traverse_eq_traverseT skel coords home fuel [] [start] [], h]
      rfl
    have hs := traverse_ok_shape skel coords home fuel [] [start] h2 hshape
    refine ⟨?_, ?_, ?_⟩
    · rcases hs with rfl | ⟨c, hc1, hc2, rfl⟩
      · exact Or.inl rfl
      · exact Or.inr ⟨c, hc1, hc2, rfl⟩
    · intro p hp hpne
      rcases traverseT_trace_skel skel coords home start fuel [] [start] [] h2 tr h
          (fun p hp => Or.inl (List.mem_singleton.mp hp)) (fun p hp => absurd hp (List.not_mem_nil p))
          p hp with heq | hok
      · exact absurd heq hpne
      · exact hok
    · refine traverseT_count skel coords home start fuel [] [start] [] h2 tr h ?_ ?_
      · intro p hp
        have : List.count p [start] = 0 := by
          rw [List.count_eq_zero]
          simp [hp]
        simp [this]
      · simp
  · intro hf
    refine traverseT_no_fuelOut skel coords home fuel [] [start] [] ?_
    have h1 : unseenCount skel [] ≤ (validSet skel).card := Finset.card_filter_le _ _
    rw [validSet_card] at h1
    unfold tfuel at hf
    simp only [List.length_cons, List.length_nil]
    omega

/-- C8 amended, witnessed on the concrete walk over `skelC`: the walk
finds the keypoint `(4, 2)`, every visited pixel except the start was on
the skeleton, and the trace repeats no pixel except the start. -/
theorem traverse_walk_spec_witness :
    ((⟨5, 5, 0, [NRef.coord (4, 2)]⟩ : RawNode).nbrs = homeC.nbrs ∨
      ∃ c, c ∈ ([(4, 2)] : List (Int × Int)) ∧ c ≠ (homeC.x, homeC.y) ∧
        (⟨5, 5, 0, [NRef.coord (4, 2)]⟩ : RawNode).nbrs = sadd homeC.nbrs (NRef.coord c)) ∧
    (∀ p ∈ ([(4, 5), (3, 4), (2, 3), (4, 5), (4, 3)] : List (Int × Int)), p ≠ (4, 5) →
      npGet skelC p.2 p.1 = .ok true) ∧
    (∀ p : Int × Int, p ≠ (4, 5) →
      List.count p ([(4, 5), (3, 4), (2, 3), (4, 5), (4, 3)] : List (Int × Int)) ≤ 1) ∧
    List.count ((4 : Int), (5 : Int)) ([(4, 5), (3, 4), (2, 3), (4, 5), (4, 3)] : List (Int × Int)) ≤ 2 :=
  (traverse_walk_spec skelC [(4, 2)] homeC (4, 5) (tfuel skelC)).2.1
    ⟨5, 5, 0, [NRef.coord (4, 2)]⟩ [(4, 5), (3, 4), (2, 3), (4, 5), (4, 3)] (by decide)

end GraphServer
